import Mathlib

/-!
# Verification of the converter's orchestration core

A shallow embedding, in Lean 4, of the three subsystems of the repository's
orchestration layer, translated from the Python sources:

* `api/utils/rate_limiter.py` — token bucket plus sliding-window rate limiter;
* `api/utils/cache.py` — content-addressed conversion cache with eviction;
* `api/utils/segment_processor.py` — split / convert / merge pipeline for
  large media files.

Modelling conventions, used throughout:

* Python `str` values are modelled as `List Char` (`Str` below); Python string
  comparison is the lexicographic order on characters, which is exactly
  Mathlib's linear order on `List Char`.
* Python `float` time values and token counts are modelled as exact rationals
  (`ℚ`).  Every concrete scenario proved below only performs float operations
  that are exact in IEEE double precision up to the comparisons made (integral
  values, halting `min`/`max` caps), so the rational model and the float
  program make identical branch decisions on these scenarios.
* Effectful collaborators (the filesystem, `ffmpeg`/`ffprobe` subprocesses)
  are passed explicitly: the filesystem as the data it holds, a subprocess as
  the function from its inputs to its observable outcome.
* Cryptographic digests (SHA-256 of the file content, MD5 of the key string)
  are modelled as injective functions — the standard collision-freeness
  idealization; the SHA-256 model, like the real hex digest, never emits the
  `'_'` separator character.
-/

namespace TheConverter

/-- Python strings are modelled as lists of characters. -/
abbrev Str := List Char

/-! ## Rate limiter (`api/utils/rate_limiter.py`) -/

/-- `RateLimitConfig` from `rate_limiter.py`, with the source's defaults. -/
structure RateLimitConfig where
  requests_per_minute : ℕ := 10
  requests_per_hour : ℕ := 100
  requests_per_day : ℕ := 1000
  burst_size : ℕ := 5
  deriving DecidableEq

/-- The per-client portion of `RateLimiter`'s state: the three window
timestamp lists (`minute_requests`, `hour_requests`, `day_requests`), the
fractional token count and the last refill time. -/
structure ClientState where
  minute_requests : List ℚ
  hour_requests : List ℚ
  day_requests : List ℚ
  tokens : ℚ
  last_update : ℚ
  deriving DecidableEq

/-- State of a client never seen before: the `defaultdict` factories give
empty lists, `burst_size` tokens, and `last_update = time.time()` evaluated at
first touch (`now`). -/
def initClientState (cfg : RateLimitConfig) (now : ℚ) : ClientState :=
  ⟨[], [], [], cfg.burst_size, now⟩

/-- `RateLimiter._cleanup_old_requests`: drop timestamps older than each
window's retention (60 s / 3600 s / 86400 s). -/
def cleanupOldRequests (now : ℚ) (s : ClientState) : ClientState :=
  { s with
    minute_requests := s.minute_requests.filter (fun ts => now - ts < 60)
    hour_requests := s.hour_requests.filter (fun ts => now - ts < 3600)
    day_requests := s.day_requests.filter (fun ts => now - ts < 86400) }

/-- `RateLimiter._refill_tokens`: add `elapsed * requests_per_minute / 60`
tokens, capped at `burst_size`, and move `last_update` to `now`. -/
def refillTokens (cfg : RateLimitConfig) (now : ℚ) (s : ClientState) : ClientState :=
  let elapsed := now - s.last_update
  let tokens_to_add := elapsed * ((cfg.requests_per_minute : ℚ) / 60)
  { s with
    tokens := min (cfg.burst_size : ℚ) (s.tokens + tokens_to_add)
    last_update := now }

/-- Python `int()` on a rational: truncation toward zero. -/
def pyInt (q : ℚ) : ℤ := q.num / (q.den : ℤ)

/-- The four denial branches of `check_rate_limit`, in source order.  The
source renders these as message strings; the model keeps the numeric payload
each message interpolates. -/
inductive DenyReason where
  | burst (waitSeconds : ℤ)
  | minuteWindow (limit : ℕ)
  | hourWindow (limit : ℕ)
  | dayWindow (limit : ℕ)
  deriving DecidableEq

/-- `RateLimiter.check_rate_limit`: cleanup, refill, then deny on the token
bucket, the minute window, the hour window or the day window, in that order;
otherwise record `now` in all three windows and consume one token.  Returns
the `(is_allowed, error)` pair together with the client state after the
call. -/
def checkRateLimit (cfg : RateLimitConfig) (now : ℚ) (s0 : ClientState) :
    (Bool × Option DenyReason) × ClientState :=
  let s := refillTokens cfg now (cleanupOldRequests now s0)
  if s.tokens < 1 then
    ((false, some (.burst (pyInt ((1 - s.tokens) / ((cfg.requests_per_minute : ℚ) / 60))))), s)
  else if cfg.requests_per_minute ≤ s.minute_requests.length then
    ((false, some (.minuteWindow cfg.requests_per_minute)), s)
  else if cfg.requests_per_hour ≤ s.hour_requests.length then
    ((false, some (.hourWindow cfg.requests_per_hour)), s)
  else if cfg.requests_per_day ≤ s.day_requests.length then
    ((false, some (.dayWindow cfg.requests_per_day)), s)
  else
    ((true, none),
      { s with
        minute_requests := s.minute_requests ++ [now]
        hour_requests := s.hour_requests ++ [now]
        day_requests := s.day_requests ++ [now]
        tokens := s.tokens - 1 })

/-- `RateLimiter.get_remaining`: cleanup, then report the remaining quota in
each window and the (truncated) token count; the cleanup mutation is part of
the returned state. -/
def getRemaining (cfg : RateLimitConfig) (now : ℚ) (s0 : ClientState) :
    (ℤ × ℤ × ℤ × ℤ) × ClientState :=
  let s := cleanupOldRequests now s0
  (((cfg.requests_per_minute : ℤ) - s.minute_requests.length,
    (cfg.requests_per_hour : ℤ) - s.hour_requests.length,
    (cfg.requests_per_day : ℤ) - s.day_requests.length,
    pyInt s.tokens), s)

/-- `RateLimiter.reset`: clear the three windows, restore `burst_size`
tokens, and stamp `last_update` with the current time. -/
def resetClient (cfg : RateLimitConfig) (now : ℚ) (_s : ClientState) : ClientState :=
  ⟨[], [], [], cfg.burst_size, now⟩

/-- One client's step of `RateLimiter.start_cleanup_task`'s periodic sweep:
cleanup, then drop the client entirely (`none`) when all three windows are
empty. -/
def sweepClient (now : ℚ) (s0 : ClientState) : Option ClientState :=
  let s := cleanupOldRequests now s0
  if s.minute_requests = [] ∧ s.hour_requests = [] ∧ s.day_requests = [] then none else some s

/-- Run `check_rate_limit` for one client at each time in `times`, collecting
the returned `(is_allowed, error)` pairs and the final client state. -/
def runClient (cfg : RateLimitConfig) (s : ClientState) :
    List ℚ → List (Bool × Option DenyReason) × ClientState
  | [] => ([], s)
  | t :: ts =>
    let r := checkRateLimit cfg t s
    let rest := runClient cfg r.2 ts
    (r.1 :: rest.1, rest.2)

/-- The configuration of the C4 scenario: `requestsPerMinute = 5`, all other
fields at their source defaults. -/
def rpm5Config : RateLimitConfig := { requests_per_minute := 5 }

/-- Nesting of the per-client windows: every minute-window timestamp is also
in the hour window, and every hour-window timestamp is also in the day
window. -/
def Nested (s : ClientState) : Prop :=
  s.minute_requests ⊆ s.hour_requests ∧ s.hour_requests ⊆ s.day_requests

/-! ## Conversion cache (`api/utils/cache.py`) -/

/-- `CacheEntry` from `cache.py`.  The `metadata : Dict[str, Any]` field is
modelled as an association list of strings; nothing in the module reads it
back. -/
structure CacheEntry where
  key : Str
  file_hash : Str
  output_format : Str
  quality : Str
  file_path : Str
  created_at : ℚ
  size : ℕ
  metadata : List (Str × Str)
  deriving DecidableEq

/-- The `ConversionCache.__init__` parameters, pre-scaled as the constructor
does: `max_cache_size = max_cache_size_mb * 1024 * 1024` bytes and `max_age`
in seconds (`timedelta(hours=max_age_hours)`). -/
structure CacheConfig where
  cache_dir : Str
  max_cache_size : ℕ
  max_age : ℚ
  deriving DecidableEq

/-- The mutable state `ConversionCache` interacts with: the in-memory index
`self.index` (a Python `dict`, i.e. an insertion-ordered association list
with unique keys) and the set of artifact files currently existing on disk.
The persisted JSON mirror of the index (`_save_index`) carries no additional
information and is not modelled separately. -/
structure CacheState where
  index : List (Str × CacheEntry)
  files : List Str
  deriving DecidableEq

/-- `ConversionCache._compute_file_hash` — the SHA-256 hex digest of the
file's full byte content.  The digest is modelled as an abstract injective
function of the content (the standard collision-freeness idealization); like
the real hex digest, its output alphabet never contains the `'_'` separator.
The input file is identified with its byte content, the only thing the
source reads from it. -/
def computeFileHash (content : ℕ) : Str := List.replicate content 'a'

/-- The MD5 hex digest applied by `_generate_cache_key`, under the same
injectivity idealization, modelled as the identity on key strings. -/
def md5Hex (s : Str) : Str := s

/-- `ConversionCache._generate_cache_key`: the digest of
`f"{file_hash}_{output_format}_{quality}"`. -/
def generateCacheKey (file_hash fmt quality : Str) : Str :=
  md5Hex (file_hash ++ '_' :: fmt ++ '_' :: quality)

/-- Python `dict` lookup `index.get(key)` on the modelled index. -/
def indexFind (k : Str) : List (Str × CacheEntry) → Option CacheEntry
  | [] => none
  | (k', e) :: rest => if k' = k then some e else indexFind k rest

/-- Python `dict` assignment `index[key] = entry`: replace in place when the
key is present, append otherwise. -/
def indexInsert (k : Str) (e : CacheEntry) (idx : List (Str × CacheEntry)) :
    List (Str × CacheEntry) :=
  if k ∈ idx.map Prod.fst then
    idx.map (fun p => if p.1 = k then (k, e) else p)
  else idx ++ [(k, e)]

/-- Python `del index[key]`. -/
def indexErase (k : Str) (idx : List (Str × CacheEntry)) : List (Str × CacheEntry) :=
  idx.filter (fun p => p.1 ≠ k)

/-- `sum(entry.size for entry in self.index.values())`. -/
def totalSize (idx : List (Str × CacheEntry)) : ℕ :=
  (idx.map (fun p => p.2.size)).sum

/-- `ConversionCache.get` at time `now`, for an input file with byte content
`content`: compute the key, and on an index hit check that the artifact file
still exists and that the entry is no older than `max_age`, deleting the
stale entry (and, in the expiry case, the file) otherwise.  Returns the
`Optional[Path]` result together with the state after the call. -/
def cacheGet (cfg : CacheConfig) (now : ℚ) (content : ℕ) (fmt quality : Str)
    (st : CacheState) : Option Str × CacheState :=
  let key := generateCacheKey (computeFileHash content) fmt quality
  match indexFind key st.index with
  | none => (none, st)
  | some e =>
    if e.file_path ∈ st.files then
      if cfg.max_age < now - e.created_at then
        (none, ⟨indexErase key st.index, st.files.erase e.file_path⟩)
      else (some e.file_path, st)
    else (none, ⟨indexErase key st.index, st.files⟩)

/-- The eviction loop of `ConversionCache._cleanup_if_needed`, over the
oldest-first entry list: stop (keeping all remaining entries) as soon as the
running total is at most 80 % of `max_size`; otherwise unlink the entry's
file if it exists — only in that case is its size subtracted from the
running total — and delete the entry.  The float literal `0.8` is modelled
as the exact rational `4/5`.  Returns the surviving entries and the
filesystem after the unlinks. -/
def evictLoop (maxSize : ℕ) :
    List (Str × CacheEntry) → ℚ → List Str → List (Str × CacheEntry) × List Str
  | [], _, files => ([], files)
  | (k, e) :: rest, total, files =>
    if total ≤ (maxSize : ℚ) * (4 / 5) then ((k, e) :: rest, files)
    else if e.file_path ∈ files then
      evictLoop maxSize rest (total - e.size) (files.erase e.file_path)
    else
      evictLoop maxSize rest total files

/-- The oldest-first ordering of `_cleanup_if_needed`:
`sorted(self.index.items(), key=lambda x: x[1].created_at)`.  Python's sort
is stable, as is `insertionSort`. -/
def sortByCreated (idx : List (Str × CacheEntry)) : List (Str × CacheEntry) :=
  idx.insertionSort (fun a b => a.2.created_at ≤ b.2.created_at)

instance createdAtLeTotal :
    IsTotal (Str × CacheEntry) (fun a b => a.2.created_at ≤ b.2.created_at) :=
  ⟨fun _ _ => le_total _ _⟩

instance createdAtLeTrans :
    IsTrans (Str × CacheEntry) (fun a b => a.2.created_at ≤ b.2.created_at) :=
  ⟨fun _ _ _ hab hbc => le_trans hab hbc⟩

/-- `ConversionCache._cleanup_if_needed`: when the total cached bytes exceed
`max_cache_size`, run the eviction loop over the entries sorted oldest-first.
The surviving entries are kept in sorted order; Python keeps them in dict
insertion order, but the index is semantically a key→entry map and no
observable behaviour depends on its internal order (lookups are by key, and
re-sorting an already created-at-sorted survivor list is the identity). -/
def cleanupIfNeeded (cfg : CacheConfig) (st : CacheState) : CacheState :=
  let total : ℚ := totalSize st.index
  if (cfg.max_cache_size : ℚ) < total then
    let r := evictLoop cfg.max_cache_size (sortByCreated st.index) total st.files
    ⟨r.1, r.2⟩
  else st

/-- `ConversionCache.set` at time `now`: hash the input content, derive the
key, move the converted output file into the cache under the key-derived
name `f"{cache_key}.{output_format}"`, record the entry (`created_at = now`,
`size` from the moved file's `stat`), and finally evict if over the size
limit. -/
def cacheSet (cfg : CacheConfig) (now : ℚ) (content : ℕ) (outputPath : Str)
    (outputSize : ℕ) (fmt quality : Str) (metadata : List (Str × Str))
    (st : CacheState) : CacheState :=
  let file_hash := computeFileHash content
  let key := generateCacheKey file_hash fmt quality
  let cached_file := cfg.cache_dir ++ '/' :: key ++ '.' :: fmt
  let entry : CacheEntry :=
    ⟨key, file_hash, fmt, quality, cached_file, now, outputSize, metadata⟩
  cleanupIfNeeded cfg
    ⟨indexInsert key entry st.index, (st.files.erase outputPath) ++ [cached_file]⟩

/-- The `total_entries` and byte-exact `total_size` of
`ConversionCache.get_stats`, plus the extreme creation timestamps (the
source additionally derives a rounded MB figure and a utilization
percentage from the same two numbers). -/
structure CacheStats where
  total_entries : ℕ
  total_size : ℕ
  oldest_entry : Option ℚ
  newest_entry : Option ℚ
  deriving DecidableEq

/-- `ConversionCache.get_stats`. -/
def getStats (st : CacheState) : CacheStats :=
  ⟨st.index.length, totalSize st.index,
    (st.index.map (fun p => p.2.created_at)).min?,
    (st.index.map (fun p => p.2.created_at)).max?⟩

/-- Entries created by `cacheSet` carry their own derivation: the stored key
is the cache key of the stored `(file_hash, output_format, quality)` triple,
the stored hash is a digest (so never contains `'_'`), and the stored format
is underscore-free.  `WellKeyed` states this invariant of an index. -/
def WellKeyed (st : CacheState) : Prop :=
  ∀ p ∈ st.index,
    p.1 = generateCacheKey p.2.file_hash p.2.output_format p.2.quality
      ∧ '_' ∉ p.2.file_hash ∧ '_' ∉ p.2.output_format

/-! ## Segment processor (`api/utils/segment_processor.py`) -/

/-- Decimal digit character of `n % 10`. -/
def decDigit (n : ℕ) : Char := Char.ofNat (48 + n % 10)

/-- The `%03d` of the FFmpeg output pattern `segment_%03d`: decimal,
zero-padded to a minimum width of 3.  For `n < 1000` this is exactly the
three positional decimal digits of `n`; beyond that it is the full decimal
expansion. -/
def pad3 (n : ℕ) : Str :=
  if n < 1000 then [decDigit (n / 100), decDigit (n / 10), decDigit n]
  else Nat.toDigits 10 n

/-- The file name FFmpeg's segment muxer gives segment number `n` under the
pattern `segment_%03d.{ext}` of `split_into_segments` (line 97). -/
def segmentName (ext : Str) (n : ℕ) : Str :=
  "segment_".toList ++ pad3 n ++ '.' :: ext

/-- The complete file set a split into `n` segments writes, listed in
ascending numeric sequence order. -/
def segmentNames (ext : Str) (n : ℕ) : List Str :=
  (List.range n).map (segmentName ext)

/-- `sorted(output_dir.glob("segment_*.*"))` (line 125): the split's segment
files, discovered in whatever order the filesystem lists them, are sorted.
Python compares same-directory `Path`s by their name strings, i.e. by the
lexicographic order on characters — Mathlib's order on `List Char`. -/
def discoveredSegments (listing : List Str) : List Str :=
  listing.insertionSort (fun a b => a ≤ b)

/-- `SegmentProcessor.get_duration`: a successful probe yields the reported
duration (`float(data.get("format", {}).get("duration", 0))`, so `0` when
the JSON has none); a failed probe (non-zero exit, timeout, parse error)
yields `0`. -/
def getDuration (probeResult : Option ℚ) : ℚ :=
  match probeResult with
  | some d => d
  | none => 0

/-- The duration guard of `SegmentProcessor.split_into_segments` (lines
78–91): when the probed duration is `0` the function returns `[]` before the
FFmpeg split command is even built — `none` here; otherwise it computes
`num_segments = math.ceil(total_duration / self.segment_duration)` and goes
on to invoke the split — `some num_segments` here. -/
def splitSegmentCount (segmentDuration : ℚ) (probeResult : Option ℚ) : Option ℤ :=
  let total := getDuration probeResult
  if total = 0 then none
  else some ⌈total / segmentDuration⌉

/-- `SegmentProcessor.__init__`:
`self.segment_duration = segment_duration_minutes * 60` seconds. -/
def segmentDurationOfMinutes (m : ℕ) : ℚ := m * 60

/-- `segment.with_suffix(f".{output_format}")` (line 162): replace the final
extension (everything after the last `'.'`), or append one if the name has
none. -/
def withSuffix (fmt : Str) (p : Str) : Str :=
  (if '.' ∈ p then ((p.reverse.dropWhile (fun c => c ≠ '.')).drop 1).reverse else p)
    ++ '.' :: fmt

/-- `SegmentProcessor.convert_segments`, the per-segment FFmpeg invocation
(`_convert_segment`) abstracted by its outcome `convertOk`.  The loop visits
every segment — a failure is logged and skipped, never breaking the loop —
and appends the renamed output path to the converted list only on success.
Returns the converted paths in iteration order, paired with the number of
conversion attempts made. -/
def convertSegments (convertOk : Str → Bool) (fmt : Str) :
    List Str → List Str × ℕ
  | [] => ([], 0)
  | s :: rest =>
    let r := convertSegments convertOk fmt rest
    (if convertOk s then withSuffix fmt s :: r.1 else r.1, r.2 + 1)

/-- Observable outcome of one `SegmentProcessor.process_large_file` run:
how many segment conversions were attempted, which segment list (if any) was
handed to `merge_segments`, and the returned success flag. -/
structure PipelineRun where
  convertAttempts : ℕ
  mergeInput : Option (List Str)
  success : Bool
  deriving DecidableEq

/-- `SegmentProcessor.process_large_file` (lines 314–359), the three
subprocess stages abstracted by their outcomes: `splitResult` is the list
`split_into_segments` returned (empty on split failure), `convertOk` decides
each segment conversion, `mergeOk` the merge subprocess.  An empty split
result fails the run; conversion failures merely shrink the converted list;
`merge_segments` runs on whatever converted — only an empty converted list
prevents the merge. -/
def processLargeFile (splitResult : List Str) (convertOk : Str → Bool)
    (mergeOk : List Str → Bool) (fmt : Str) : PipelineRun :=
  if splitResult = [] then ⟨0, none, false⟩
  else
    let c := convertSegments convertOk fmt splitResult
    if c.1 = [] then ⟨c.2, none, false⟩
    else ⟨c.2, some c.1, mergeOk c.1⟩

/-- The split-stage progress wrapper of `process_large_file` (line 324):
`progress_callback(p * 0.2)`.  The float constants `0.2`, `0.7`, `0.1` are
modelled as exact rationals; at every reported point of the verified
scenarios the float computation rounds to the same values. -/
def splitProgressMap (p : ℚ) : ℚ := p * (2 / 10)

/-- The convert-stage progress wrapper (line 335):
`progress_callback(20 + p * 0.7)`. -/
def convertProgressMap (p : ℚ) : ℚ := 20 + p * (7 / 10)

/-- The merge-stage progress wrapper (line 351):
`progress_callback(90 + p * 0.1)`. -/
def mergeProgressMap (p : ℚ) : ℚ := 90 + p * (1 / 10)

/-- The sub-progress values `convert_segments` reports for `n` segments:
`((idx + 1) / total_segments) * 100` after each segment (line 180). -/
def convertSubProgress (n : ℕ) : List ℚ :=
  (List.range n).map (fun (idx : ℕ) => ((idx : ℚ) + 1) / (n : ℚ) * 100)

/-- The full sequence of values a successful `process_large_file` run over
`n` segments delivers to the progress sink: the split stage's single
`progress_callback(100)` (line 130) through the split band, one convert
report per segment through the convert band, and the merge stage's final
`progress_callback(100)` (line 282) through the merge band. -/
def emittedProgress (n : ℕ) : List ℚ :=
  (splitProgressMap 100 :: (convertSubProgress n).map convertProgressMap)
    ++ [mergeProgressMap 100]

/-! ## Concrete scenario inputs -/

/-- The C5 scenario: six rapid `check_rate_limit` calls under the default
configuration (`burst_size = 5`, minute/hour/day ceilings 10/100/1000), all
at the same instant. -/
def burstScenarioRun : List (Bool × Option DenyReason) × ClientState :=
  runClient {} (initClientState {} 0) [0, 0, 0, 0, 0, 0]

/-- The `.mp3` extension of the C1/C2 scenarios. -/
def mp3Ext : Str := "mp3".toList

/-- Conversion outcome of the C1 counterexample scenario: segment 3 of 5
(sequence index 2) fails, every other segment converts. -/
def thirdSegmentFails : Str → Bool := fun s => decide (s ≠ segmentName mp3Ext 2)

/-- The C1 counterexample run: 5 split segments, segment 3 fails conversion,
the merge subprocess succeeds, target format `.wav`. -/
def partialFailureRun : PipelineRun :=
  processLargeFile (segmentNames mp3Ext 5) thirdSegmentFails (fun _ => true)
    "wav".toList

/-- Cache configuration of the concrete cache scenarios: the source defaults,
1000 MB size cap (here 1 MB for smaller numbers) and a 24-hour age cap. -/
def demoCacheCfg : CacheConfig := ⟨"cache".toList, 1048576, 86400⟩

/-- The C3 collision scenario: the conversion of the content-7 input to
format `a_b`, quality `c`, cached at time 0 into an initially empty cache. -/
def collisionState : CacheState :=
  cacheSet demoCacheCfg 0 7 "out.tmp".toList 100 "a_b".toList "c".toList []
    ⟨[], ["out.tmp".toList]⟩

/-- The entry the C3 round-trip scenario stores: content 7 converted to
`wav` at quality `high`, cached at time 0. -/
def roundtripEntry : CacheEntry :=
  ⟨generateCacheKey (computeFileHash 7) "wav".toList "high".toList,
    computeFileHash 7, "wav".toList, "high".toList,
    "cache".toList ++ '/' :: generateCacheKey (computeFileHash 7) "wav".toList "high".toList
      ++ '.' :: "wav".toList,
    0, 100, []⟩

/-- The C3 round-trip scenario state: the content-7 `wav`/`high` conversion
cached at time 0 into an initially empty cache. -/
def roundtripState : CacheState :=
  cacheSet demoCacheCfg 0 7 "out.tmp".toList 100 "wav".toList "high".toList []
    ⟨[], ["out.tmp".toList]⟩

/-- The key of the C7 stale-entry scenario. -/
def staleKey : Str := generateCacheKey (computeFileHash 3) "wav".toList "high".toList

/-- The entry of the C7 stale-entry scenario, whose artifact file
`cache/gone.wav` no longer exists. -/
def staleEntry : CacheEntry :=
  ⟨staleKey, computeFileHash 3, "wav".toList, "high".toList,
    "cache/gone.wav".toList, 0, 10, []⟩

/-- The C7 scenario state: one indexed entry, no file on disk. -/
def staleState : CacheState := ⟨[(staleKey, staleEntry)], []⟩

/-- An entry of the C6 eviction scenario: 60 bytes, created at time `t`. -/
def evictEntry (nm : Str) (t : ℚ) : CacheEntry := ⟨nm, nm, [], [], nm, t, 60, []⟩

/-- Configuration of the C6 eviction scenario: a 100-byte cache. -/
def evictCfg : CacheConfig := ⟨"cache".toList, 100, 86400⟩

/-- The C6 scenario state: two 60-byte entries (120 bytes total, over the
100-byte cap), the older created at time 1. -/
def evictState : CacheState :=
  ⟨[("k1".toList, evictEntry "k1".toList 1), ("k2".toList, evictEntry "k2".toList 2)],
    ["k1".toList, "k2".toList]⟩

theorem nested_cleanupOldRequests {now : ℚ} {s : ClientState} (h : Nested s) :
    Nested (cleanupOldRequests now s) := by
  obtain ⟨h1, h2⟩ := h
  constructor
  · intro x hx
    simp only [cleanupOldRequests, List.mem_filter, decide_eq_true_eq] at hx ⊢
    exact ⟨h1 hx.1, by linarith [hx.2]⟩
  · intro x hx
    simp only [cleanupOldRequests, List.mem_filter, decide_eq_true_eq] at hx ⊢
    exact ⟨h2 hx.1, by linarith [hx.2]⟩

theorem nested_refillTokens {cfg : RateLimitConfig} {now : ℚ} {s : ClientState}
    (h : Nested s) : Nested (refillTokens cfg now s) := h

theorem nested_checkRateLimit {cfg : RateLimitConfig} {now : ℚ} {s : ClientState}
    (h : Nested s) : Nested ((checkRateLimit cfg now s).2) := by
  have h' : Nested (refillTokens cfg now (cleanupOldRequests now s)) :=
    nested_refillTokens (nested_cleanupOldRequests h)
  simp only [checkRateLimit]
  split_ifs
  · exact h'
  · exact h'
  · exact h'
  · exact h'
  · obtain ⟨h1, h2⟩ := h'
    constructor
    · intro x hx
      rcases List.mem_append.1 hx with hx | hx
      · exact List.mem_append.2 (Or.inl (h1 hx))
      · exact List.mem_append.2 (Or.inr hx)
    · intro x hx
      rcases List.mem_append.1 hx with hx | hx
      · exact List.mem_append.2 (Or.inl (h2 hx))
      · exact List.mem_append.2 (Or.inr hx)

theorem nested_getRemaining {cfg : RateLimitConfig} {now : ℚ} {s : ClientState}
    (h : Nested s) : Nested ((getRemaining cfg now s).2) :=
  nested_cleanupOldRequests h

theorem nested_sweepClient {now : ℚ} {s : ClientState} (h : Nested s) :
    (sweepClient now s).elim True Nested := by
  have h' : Nested (cleanupOldRequests now s) := nested_cleanupOldRequests h
  simp only [sweepClient]
  split
  · trivial
  · exact h'

/-- C4: with `requestsPerMinute = 5` (and the default burst size of 5), five
consecutive `check_rate_limit` calls for the same client at the same instant
are all admitted, the sixth call is denied, and a seventh call made after 61
seconds of elapsed time is admitted again. -/
theorem rate_limit_window_scenario :
    (runClient rpm5Config (initClientState rpm5Config 0)
        [0, 0, 0, 0, 0, 0, 61]).1.map Prod.fst
      = [true, true, true, true, true, false, true] := by
  norm_num [runClient, checkRateLimit, cleanupOldRequests, refillTokens,
    initClientState, rpm5Config, pyInt, List.filter]

/-- C5: with burst size 5 and zero elapsed time between calls, exactly 5
rapid calls are admitted and the 6th is denied by the token bucket (the
`DenyReason.burst` branch, with the source's 6-second retry hint), even
though the minute, hour and day window counts are all still strictly below
their ceilings at the denied call. -/
theorem token_burst_scenario :
    burstScenarioRun.1
        = [(true, none), (true, none), (true, none), (true, none), (true, none),
            (false, some (DenyReason.burst 6))]
      ∧ burstScenarioRun.2.minute_requests.length
          < ({} : RateLimitConfig).requests_per_minute
      ∧ burstScenarioRun.2.hour_requests.length
          < ({} : RateLimitConfig).requests_per_hour
      ∧ burstScenarioRun.2.day_requests.length
          < ({} : RateLimitConfig).requests_per_day := by
  norm_num [burstScenarioRun, runClient, checkRateLimit, cleanupOldRequests,
    refillTokens, initClientState, pyInt, List.filter]

/-- C10: the window-nesting invariant (minute ⊆ hour ⊆ day timestamps) holds
of a fresh client and is preserved by every operation of the rate limiter:
`check_rate_limit` (an admitted request appends one identical timestamp to
all three windows), `get_remaining`, the lazy cleanup, `reset`, and the
periodic sweep (which either cleans a client or deletes it outright). -/
theorem window_nesting_invariant (cfg : RateLimitConfig) (now : ℚ)
    (s : ClientState) (h : Nested s) :
    Nested (initClientState cfg now)
      ∧ Nested ((checkRateLimit cfg now s).2)
      ∧ Nested ((getRemaining cfg now s).2)
      ∧ Nested (cleanupOldRequests now s)
      ∧ Nested (resetClient cfg now s)
      ∧ (sweepClient now s).elim True Nested :=
  ⟨⟨List.nil_subset _, List.nil_subset _⟩,
    nested_checkRateLimit h,
    nested_getRemaining h,
    nested_cleanupOldRequests h,
    ⟨List.nil_subset _, List.nil_subset _⟩,
    nested_sweepClient h⟩

/-- Witness for C10 at a concrete input: one admitted request from a fresh
client at time 0, checked at time 30. -/
theorem window_nesting_invariant_witness :
    Nested (initClientState {} 30)
      ∧ Nested ((checkRateLimit {} 30 ((checkRateLimit {} 0 (initClientState {} 0)).2)).2)
      ∧ Nested ((getRemaining {} 30 ((checkRateLimit {} 0 (initClientState {} 0)).2)).2)
      ∧ Nested (cleanupOldRequests 30 ((checkRateLimit {} 0 (initClientState {} 0)).2))
      ∧ Nested (resetClient {} 30 ((checkRateLimit {} 0 (initClientState {} 0)).2))
      ∧ (sweepClient 30 ((checkRateLimit {} 0 (initClientState {} 0)).2)).elim True Nested :=
  window_nesting_invariant {} 30 ((checkRateLimit {} 0 (initClientState {} 0)).2)
    (nested_checkRateLimit ⟨List.nil_subset _, List.nil_subset _⟩)

/-- C9: splitting fails immediately (before any FFmpeg invocation) when the
probe errors out or reports duration 0, and for a known positive duration
the computed segment count is `ceil(duration / segmentLength)` with
`segmentLength = 60 * segment_duration_minutes` seconds. -/
theorem split_duration_guard (m : ℕ) (probe : Option ℚ) (d : ℚ)
    (hprobe : probe = some d) (hd : 0 < d) :
    splitSegmentCount (segmentDurationOfMinutes m) none = none
      ∧ splitSegmentCount (segmentDurationOfMinutes m) (some 0) = none
      ∧ splitSegmentCount (segmentDurationOfMinutes m) probe
          = some ⌈d / (60 * (m : ℚ))⌉ := by
  subst hprobe
  refine ⟨rfl, rfl, ?_⟩
  simp only [splitSegmentCount, getDuration, segmentDurationOfMinutes]
  rw [if_neg (by positivity), mul_comm (m : ℚ) 60]

/-- Witness for C9: a 150-second probe result with 1-minute segments yields
`ceil(150 / 60) = 3` segments. -/
theorem split_duration_guard_witness :
    splitSegmentCount (segmentDurationOfMinutes 1) none = none
      ∧ splitSegmentCount (segmentDurationOfMinutes 1) (some 0) = none
      ∧ splitSegmentCount (segmentDurationOfMinutes 1) (some 150)
          = some ⌈(150 : ℚ) / (60 * (1 : ℕ))⌉ :=
  split_duration_guard 1 (some 150) 150 rfl (by norm_num)

theorem convertSegments_fst (convertOk : Str → Bool) (fmt : Str) (l : List Str) :
    (convertSegments convertOk fmt l).1
      = l.filterMap (fun s => if convertOk s then some (withSuffix fmt s) else none) := by
  induction l with
  | nil => rfl
  | cons s rest ih =>
    simp only [convertSegments, List.filterMap_cons]
    by_cases h : convertOk s <;> simp [h, ih]

theorem convertSegments_snd (convertOk : Str → Bool) (fmt : Str) (l : List Str) :
    (convertSegments convertOk fmt l).2 = l.length := by
  induction l with
  | nil => rfl
  | cons s rest ih => simp [convertSegments, ih]

theorem convertSegments_eq_nil_iff (convertOk : Str → Bool) (fmt : Str) (l : List Str) :
    (convertSegments convertOk fmt l).1 = [] ↔ ∀ s ∈ l, convertOk s = false := by
  rw [convertSegments_fst, List.filterMap_eq_nil_iff]
  constructor
  · intro h s hs
    have := h s hs
    by_cases hc : convertOk s <;> simp_all
  · intro h s hs
    simp [h s hs]

/-- C1 counterexample: in a 5-segment run where segment 3 of 5 fails
conversion while the other four succeed and the merge subprocess succeeds,
`process_large_file` merges the four surviving segments (a partial merge)
and reports overall success — not the claimed overall failure with no
partial merge. -/
theorem fail_together_counterexample :
    partialFailureRun.success = true
      ∧ partialFailureRun.convertAttempts = 5
      ∧ partialFailureRun.mergeInput.map List.length = some 4 := by
  decide

/-- C1 (amended): a failing segment never aborts the loop — all conversion
attempts complete regardless of failures — but the convert stage is reported
failed only when every segment fails; when at least one segment converts,
the pipeline proceeds to merge exactly the successfully converted subset and
reports the merge subprocess's own outcome. -/
theorem convert_failures_skipped (segs : List Str) (convertOk : Str → Bool)
    (mergeOk : List Str → Bool) (fmt : Str) (hne : segs ≠ []) :
    (processLargeFile segs convertOk mergeOk fmt).convertAttempts = segs.length
      ∧ ((∀ s ∈ segs, convertOk s = false) →
          (processLargeFile segs convertOk mergeOk fmt).mergeInput = none
            ∧ (processLargeFile segs convertOk mergeOk fmt).success = false)
      ∧ (∀ s₀ ∈ segs, convertOk s₀ = true →
          (processLargeFile segs convertOk mergeOk fmt).mergeInput
              = some ((convertSegments convertOk fmt segs).1)
            ∧ (processLargeFile segs convertOk mergeOk fmt).success
                = mergeOk ((convertSegments convertOk fmt segs).1)) := by
  refine ⟨?_, ?_, ?_⟩
  · simp only [processLargeFile, if_neg hne]
    split <;> simp [convertSegments_snd]
  · intro hall
    have h0 : (convertSegments convertOk fmt segs).1 = [] :=
      (convertSegments_eq_nil_iff convertOk fmt segs).2 hall
    simp [processLargeFile, if_neg hne, if_pos h0]
  · intro s₀ hs₀ hok
    have h0 : (convertSegments convertOk fmt segs).1 ≠ [] := by
      rw [Ne, convertSegments_eq_nil_iff]
      intro h
      simpa [hok] using h s₀ hs₀
    simp [processLargeFile, if_neg hne, if_neg h0]

/-- Witness for C1 (amended): a 2-segment run in which every conversion and
the merge succeed. -/
theorem convert_failures_skipped_witness :
    (processLargeFile (segmentNames mp3Ext 2) (fun _ => true) (fun _ => true)
        "wav".toList).convertAttempts = 2
      ∧ (processLargeFile (segmentNames mp3Ext 2) (fun _ => true) (fun _ => true)
          "wav".toList).mergeInput
          = some ((convertSegments (fun _ => true) "wav".toList (segmentNames mp3Ext 2)).1)
      ∧ (processLargeFile (segmentNames mp3Ext 2) (fun _ => true) (fun _ => true)
          "wav".toList).success = true := by
  have h := convert_failures_skipped (segmentNames mp3Ext 2) (fun _ => true)
    (fun _ => true) "wav".toList (by decide)
  have h3 := h.2.2 (segmentName mp3Ext 0) (by decide) rfl
  exact ⟨h.1.trans (by decide), h3.1, h3.2⟩

theorem chain'_convertBand (n : ℕ) (hn : 0 < n) :
    List.Chain' (· ≤ ·) ((convertSubProgress n).map convertProgressMap) := by
  have hnq : (0 : ℚ) < n := by exact_mod_cast hn
  rw [convertSubProgress, List.map_map, List.chain'_map]
  cases n with
  | zero => simp
  | succ m =>
    rw [List.chain'_range_succ]
    intro k _
    simp only [Function.comp_apply, convertProgressMap]
    have h1 : ((k : ℚ) + 1) / ((m + 1 : ℕ) : ℚ) ≤ (((k + 1 : ℕ) : ℚ) + 1) / ((m + 1 : ℕ) : ℚ) :=
      (div_le_div_iff_of_pos_right hnq).2 (by push_cast; linarith)
    linarith

/-- C8: on a successful run over `n` segments, the three stages' 0–100
sub-progress values are rescaled by the source's affine maps into the bands
0–20 (split), 20–90 (convert) and 90–100 (merge) — the 20 % / 70 % / 10 %
weighting — the sequence of values delivered to the progress sink is
non-decreasing, and the final delivered value is exactly 100. -/
theorem progress_composition (n : ℕ) (hn : 0 < n) :
    List.Chain' (· ≤ ·) (emittedProgress n)
      ∧ (emittedProgress n).getLast? = some 100
      ∧ (∀ p : ℚ, 0 ≤ p → p ≤ 100 →
          (0 ≤ splitProgressMap p ∧ splitProgressMap p ≤ 20)
            ∧ (20 ≤ convertProgressMap p ∧ convertProgressMap p ≤ 90)
            ∧ (90 ≤ mergeProgressMap p ∧ mergeProgressMap p ≤ 100)) := by
  have hnq : (0 : ℚ) < n := by exact_mod_cast hn
  have hbound : ∀ x ∈ splitProgressMap 100 :: (convertSubProgress n).map convertProgressMap,
      x ≤ mergeProgressMap 100 := by
    intro x hx
    rcases List.mem_cons.1 hx with hx | hx
    · subst hx
      norm_num [splitProgressMap, mergeProgressMap]
    · rw [convertSubProgress, List.map_map] at hx
      obtain ⟨idx, hidx, rfl⟩ := List.mem_map.1 hx
      have hin : (idx : ℚ) + 1 ≤ n := by
        have := List.mem_range.1 hidx
        exact_mod_cast Nat.succ_le_of_lt this
      have hdiv : ((idx : ℚ) + 1) / n ≤ 1 := (div_le_one hnq).2 hin
      simp only [Function.comp, convertProgressMap, mergeProgressMap]
      nlinarith
  refine ⟨?_, ?_, ?_⟩
  · rw [emittedProgress, List.chain'_append]
    refine ⟨?_, List.chain'_singleton _, ?_⟩
    · rw [List.chain'_cons']
      refine ⟨?_, chain'_convertBand n hn⟩
      intro y hy
      rw [convertSubProgress, List.map_map] at hy
      cases n with
      | zero => simp at hy
      | succ m =>
        rw [List.range_succ_eq_map, List.map_cons, List.head?_cons, Option.mem_def,
          Option.some.injEq] at hy
        subst hy
        simp only [Function.comp_apply, convertProgressMap, splitProgressMap]
        have hpos : (0 : ℚ) ≤ (((0 : ℕ) : ℚ) + 1) / (((m + 1 : ℕ) : ℚ)) * 100 * (7 / 10) := by
          positivity
        push_cast at hpos ⊢
        nlinarith
    · intro x hx y hy
      simp only [List.head?_cons, Option.mem_def, Option.some.injEq] at hy
      subst hy
      have hxmem : x ∈ splitProgressMap 100 :: (convertSubProgress n).map convertProgressMap :=
        List.mem_of_mem_getLast? hx
      exact hbound x hxmem
  · rw [emittedProgress, List.getLast?_concat]
    norm_num [mergeProgressMap]
  · intro p hp0 hp100
    refine ⟨⟨?_, ?_⟩, ⟨?_, ?_⟩, ⟨?_, ?_⟩⟩ <;>
      simp only [splitProgressMap, convertProgressMap, mergeProgressMap] <;>
      nlinarith

/-- Witness for C8 at `n = 3` segments. -/
theorem progress_composition_witness :
    List.Chain' (· ≤ ·) (emittedProgress 3)
      ∧ (emittedProgress 3).getLast? = some 100
      ∧ (∀ p : ℚ, 0 ≤ p → p ≤ 100 →
          (0 ≤ splitProgressMap p ∧ splitProgressMap p ≤ 20)
            ∧ (20 ≤ convertProgressMap p ∧ convertProgressMap p ≤ 90)
            ∧ (90 ≤ mergeProgressMap p ∧ mergeProgressMap p ≤ 100)) :=
  progress_composition 3 (by norm_num)

theorem decDigit_lt_aux : ∀ x y : Fin 10, x < y →
    Char.ofNat (48 + (x : ℕ)) < Char.ofNat (48 + (y : ℕ)) := by decide

theorem decDigit_lt {a b : ℕ} (h : a % 10 < b % 10) : decDigit a < decDigit b := by
  have ha : a % 10 < 10 := Nat.mod_lt _ (by norm_num)
  have hb : b % 10 < 10 := Nat.mod_lt _ (by norm_num)
  have := decDigit_lt_aux ⟨a % 10, ha⟩ ⟨b % 10, hb⟩ h
  simpa [decDigit] using this

theorem decDigit_congr {a b : ℕ} (h : a % 10 = b % 10) : decDigit a = decDigit b := by
  unfold decDigit
  rw [h]

theorem pad3_lt {i j : ℕ} (hij : i < j) (hj : j < 1000) :
    List.Lex (· < ·) (pad3 i) (pad3 j) := by
  have hi : i < 1000 := lt_trans hij hj
  rw [pad3, if_pos hi, pad3, if_pos hj]
  rcases Nat.lt_trichotomy (i / 100 % 10) (j / 100 % 10) with h1 | h1 | h1
  · exact List.Lex.rel (decDigit_lt h1)
  · rw [decDigit_congr h1]
    apply List.Lex.cons
    rcases Nat.lt_trichotomy (i / 10 % 10) (j / 10 % 10) with h2 | h2 | h2
    · exact List.Lex.rel (decDigit_lt h2)
    · rw [decDigit_congr h2]
      exact List.Lex.cons (List.Lex.rel (decDigit_lt (by omega)))
    · omega
  · omega

theorem pad3_length {n : ℕ} (h : n < 1000) : (pad3 n).length = 3 := by
  rw [pad3, if_pos h]
  rfl

theorem lex_append_left {r : Char → Char → Prop} (p : Str) {l l' : Str}
    (h : List.Lex r l l') : List.Lex r (p ++ l) (p ++ l') := by
  induction p with
  | nil => exact h
  | cons a p ih => exact List.Lex.cons ih

theorem lex_append_of_length_eq {r : Char → Char → Prop} :
    ∀ {l l' : Str}, List.Lex r l l' → l.length = l'.length →
      ∀ s t : Str, List.Lex r (l ++ s) (l' ++ t) := by
  intro l l' h
  induction h with
  | nil => intro hlen; simp at hlen
  | @rel a₁ l₁ a₂ l₂ hab => intro _ s t; exact List.Lex.rel hab
  | @cons a l₁ l₂ h ih =>
    intro hlen s t
    exact List.Lex.cons (ih (by simpa using hlen) s t)

theorem segmentName_lt (ext : Str) {i j : ℕ} (hij : i < j) (hj : j < 1000) :
    segmentName ext i < segmentName ext j := by
  have hi : i < 1000 := lt_trans hij hj
  show List.Lex (· < ·) _ _
  unfold segmentName
  rw [List.append_assoc, List.append_assoc]
  apply lex_append_left
  exact lex_append_of_length_eq (pad3_lt hij hj)
    (by rw [pad3_length hi, pad3_length hj]) _ _

theorem segmentNames_sorted (ext : Str) {n : ℕ} (hn : n ≤ 1000) :
    List.Sorted (fun a b : Str => a ≤ b) (segmentNames ext n) := by
  rw [List.Sorted, segmentNames, List.pairwise_iff_getElem]
  intro i j hi hj hij
  simp only [List.getElem_map, List.getElem_range]
  have hj' : j < n := by simpa using hj
  exact le_of_lt (segmentName_lt ext hij (lt_of_lt_of_le hj' hn))

/-- C2 counterexample: with 1001 segments the split's
`sorted(glob("segment_*.*"))` discovery is not the ascending numeric
sequence order — `segment_1000.mp3` sorts lexicographically before
`segment_999.mp3` — so the merge concatenation order differs from the order
of the sequence indices assigned at split time. -/
theorem segment_merge_order_counterexample :
    discoveredSegments (segmentNames mp3Ext 1001) ≠ segmentNames mp3Ext 1001 := by
  intro h
  have hsorted : List.Sorted (fun a b : Str => a ≤ b) (segmentNames mp3Ext 1001) := by
    rw [← h]
    exact List.sorted_insertionSort _ _
  rw [List.Sorted, segmentNames, List.pairwise_iff_getElem] at hsorted
  have h2 := hsorted 999 1000 (by simp) (by simp) (by norm_num)
  simp only [List.getElem_map, List.getElem_range] at h2
  exact absurd h2 (by decide)

/-- C2 (amended): the merge concatenation order is the lexicographic sort of
the discovered segment names, independent of the filesystem listing order;
for segment counts up to 1000 (as long as the `%03d` zero padding is not
exceeded) this coincides with ascending numeric sequence index order, and
the convert stage preserves it, so the merge concatenates in split-time
sequence order — but not beyond 1000 segments. -/
theorem segment_merge_order (n : ℕ) (hn : n ≤ 1000) (ext fmt : Str)
    (listing : List Str) (hperm : listing.Perm (segmentNames ext n))
    (convertOk : Str → Bool) (hok : ∀ s, convertOk s = true) :
    discoveredSegments listing = segmentNames ext n
      ∧ (convertSegments convertOk fmt (discoveredSegments listing)).1
          = (segmentNames ext n).map (withSuffix fmt) := by
  have h1 : discoveredSegments listing = segmentNames ext n := by
    apply List.eq_of_perm_of_sorted ((List.perm_insertionSort _ listing).trans hperm)
      (List.sorted_insertionSort _ listing) (segmentNames_sorted ext hn)
  refine ⟨h1, ?_⟩
  rw [h1, convertSegments_fst]
  have hsome : (fun s => if convertOk s then some (withSuffix fmt s) else none)
      = fun s => (some ∘ withSuffix fmt) s := by
    funext s
    rw [hok s]
    rfl
  rw [hsome, List.filterMap_eq_map]

/-- Witness for C2 (amended): the spec's own scenario — segment files with
sequence indices [2, 0, 1] discovered in that filesystem order are merged in
index order [0, 1, 2]. -/
theorem segment_merge_order_witness :
    discoveredSegments [segmentName mp3Ext 2, segmentName mp3Ext 0, segmentName mp3Ext 1]
        = segmentNames mp3Ext 3
      ∧ (convertSegments (fun _ => true) "wav".toList
          (discoveredSegments
            [segmentName mp3Ext 2, segmentName mp3Ext 0, segmentName mp3Ext 1])).1
        = (segmentNames mp3Ext 3).map (withSuffix "wav".toList) :=
  segment_merge_order 3 (by norm_num) mp3Ext "wav".toList _ (by decide) _ (fun _ => rfl)

theorem totalSize_cons (p : Str × CacheEntry) (rest : List (Str × CacheEntry)) :
    totalSize (p :: rest) = p.2.size + totalSize rest := by
  simp [totalSize]

theorem totalSize_perm {idx idx' : List (Str × CacheEntry)} (h : idx.Perm idx') :
    totalSize idx = totalSize idx' :=
  (h.map _).sum_eq

theorem sortByCreated_perm (idx : List (Str × CacheEntry)) :
    (sortByCreated idx).Perm idx :=
  List.perm_insertionSort _ idx

theorem sortByCreated_sorted (idx : List (Str × CacheEntry)) :
    List.Sorted (fun a b : Str × CacheEntry => a.2.created_at ≤ b.2.created_at)
      (sortByCreated idx) :=
  List.sorted_insertionSort _ idx

theorem evictLoop_spec (maxSize : ℕ) :
    ∀ (l : List (Str × CacheEntry)) (total : ℚ) (files : List Str),
      (totalSize l : ℚ) ≤ total →
        (∃ pre, pre ++ (evictLoop maxSize l total files).1 = l)
          ∧ ((totalSize (evictLoop maxSize l total files).1 : ℚ)
              ≤ (maxSize : ℚ) * (4 / 5)) := by
  intro l
  induction l with
  | nil =>
    intro total files _
    refine ⟨⟨[], rfl⟩, ?_⟩
    simp only [evictLoop, totalSize, List.map_nil, List.sum_nil, Nat.cast_zero]
    positivity
  | cons p rest ih =>
    intro total files htot
    obtain ⟨k, e⟩ := p
    rw [totalSize_cons] at htot
    push_cast at htot
    simp only [evictLoop]
    split
    · refine ⟨⟨[], rfl⟩, ?_⟩
      rw [totalSize_cons]
      push_cast
      linarith
    · split
      · obtain ⟨⟨pre, hpre⟩, hbound⟩ :=
          ih (total - e.size) (files.erase e.file_path) (by linarith)
        exact ⟨⟨(k, e) :: pre, by rw [List.cons_append, hpre]⟩, hbound⟩
      · obtain ⟨⟨pre, hpre⟩, hbound⟩ :=
          ih total files (by linarith [(Nat.cast_nonneg e.size : (0 : ℚ) ≤ (e.size : ℚ))])
        exact ⟨⟨(k, e) :: pre, by rw [List.cons_append, hpre]⟩, hbound⟩

/-- C6: whenever the total cached bytes exceed `max_cache_size`, eviction
removes entries oldest-first (the removed set is a prefix of the
created-at-sorted entry list, so every removed entry is at least as old as
every kept one) until the total falls to at most 80 % of `max_cache_size`;
in every case the index left behind by `_cleanup_if_needed` totals at most
`max_cache_size` bytes. -/
theorem cache_eviction_oldest_first (cfg : CacheConfig) (st : CacheState) :
    totalSize (cleanupIfNeeded cfg st).index ≤ cfg.max_cache_size
      ∧ ((cfg.max_cache_size : ℚ) < (totalSize st.index : ℚ) →
          (totalSize (cleanupIfNeeded cfg st).index : ℚ)
              ≤ (cfg.max_cache_size : ℚ) * (4 / 5)
            ∧ ∃ removed, removed ++ (cleanupIfNeeded cfg st).index = sortByCreated st.index
                ∧ ∀ r ∈ removed, ∀ kept ∈ (cleanupIfNeeded cfg st).index,
                    r.2.created_at ≤ kept.2.created_at) := by
  by_cases htrig : (cfg.max_cache_size : ℚ) < (totalSize st.index : ℚ)
  · have htot : (totalSize (sortByCreated st.index) : ℚ) ≤ (totalSize st.index : ℚ) := by
      rw [totalSize_perm (sortByCreated_perm st.index)]
    obtain ⟨⟨pre, hpre⟩, hbound⟩ :=
      evictLoop_spec cfg.max_cache_size (sortByCreated st.index)
        (totalSize st.index : ℚ) st.files htot
    have hres : (cleanupIfNeeded cfg st).index
        = (evictLoop cfg.max_cache_size (sortByCreated st.index)
            (totalSize st.index : ℚ) st.files).1 := by
      simp only [cleanupIfNeeded, if_pos htrig]
    have hsorted : List.Sorted (fun a b : Str × CacheEntry => a.2.created_at ≤ b.2.created_at)
        (sortByCreated st.index) := sortByCreated_sorted st.index
    have holdest : ∀ r ∈ pre, ∀ kept ∈ (cleanupIfNeeded cfg st).index,
        r.2.created_at ≤ kept.2.created_at := by
      intro r hr kept hkept
      rw [hres] at hkept
      rw [← hpre] at hsorted
      exact (List.pairwise_append.1 hsorted).2.2 r hr kept hkept
    refine ⟨?_, fun _ => ⟨by rw [hres]; exact hbound, pre, by rw [hres]; exact hpre, holdest⟩⟩
    · rw [hres]
      have hmax : (totalSize (evictLoop cfg.max_cache_size (sortByCreated st.index)
          (totalSize st.index : ℚ) st.files).1 : ℚ) ≤ (cfg.max_cache_size : ℚ) := by
        have h45 : (cfg.max_cache_size : ℚ) * (4 / 5) ≤ (cfg.max_cache_size : ℚ) := by
          have : (0 : ℚ) ≤ (cfg.max_cache_size : ℚ) := Nat.cast_nonneg _
          linarith
        linarith
      exact_mod_cast hmax
  · have hres : cleanupIfNeeded cfg st = st := by
      simp only [cleanupIfNeeded, if_neg htrig]
    refine ⟨?_, fun h => absurd h htrig⟩
    rw [hres]
    have : (totalSize st.index : ℚ) ≤ (cfg.max_cache_size : ℚ) := not_lt.1 htrig
    exact_mod_cast this

/-- Witness for C6: two 60-byte entries in a 100-byte cache trigger
eviction. -/
theorem cache_eviction_oldest_first_witness :
    totalSize (cleanupIfNeeded evictCfg evictState).index ≤ evictCfg.max_cache_size
      ∧ ((totalSize (cleanupIfNeeded evictCfg evictState).index : ℚ)
            ≤ (evictCfg.max_cache_size : ℚ) * (4 / 5)
          ∧ ∃ removed,
              removed ++ (cleanupIfNeeded evictCfg evictState).index
                  = sortByCreated evictState.index
                ∧ ∀ r ∈ removed, ∀ kept ∈ (cleanupIfNeeded evictCfg evictState).index,
                    r.2.created_at ≤ kept.2.created_at) := by
  have h := cache_eviction_oldest_first evictCfg evictState
  exact ⟨h.1, h.2 (by norm_num [totalSize, evictState, evictCfg, evictEntry])⟩

theorem indexFind_mem {k : Str} {e : CacheEntry} :
    ∀ {idx : List (Str × CacheEntry)}, indexFind k idx = some e → (k, e) ∈ idx := by
  intro idx
  induction idx with
  | nil => intro h; simp [indexFind] at h
  | cons p rest ih =>
    intro h
    obtain ⟨k', e'⟩ := p
    rw [indexFind] at h
    by_cases hk : k' = k
    · rw [if_pos hk] at h
      obtain rfl := Option.some.inj h
      subst hk
      exact List.mem_cons_self _ _
    · rw [if_neg hk] at h
      exact List.mem_cons_of_mem _ (ih h)

theorem indexErase_length {k : Str} :
    ∀ {idx : List (Str × CacheEntry)} {e : CacheEntry}, indexFind k idx = some e →
      (idx.map Prod.fst).Nodup → (indexErase k idx).length + 1 = idx.length := by
  intro idx
  induction idx with
  | nil => intro e h; simp [indexFind] at h
  | cons p rest ih =>
    intro e hfind hnodup
    obtain ⟨k', e'⟩ := p
    rw [indexFind] at hfind
    rw [List.map_cons, List.nodup_cons] at hnodup
    by_cases hk : k' = k
    · subst hk
      have hrest : indexErase k' rest = rest := by
        rw [indexErase]
        apply List.filter_eq_self.2
        intro a ha
        simp only [ne_eq, decide_eq_true_eq]
        intro hak
        exact hnodup.1 (List.mem_map.2 ⟨a, ha, hak⟩)
      have hstep : indexErase k' ((k', e') :: rest) = indexErase k' rest := by
        rw [indexErase, indexErase, List.filter_cons]
        simp
      rw [hstep, hrest, List.length_cons]
    · have hstep : indexErase k ((k', e') :: rest) = (k', e') :: indexErase k rest := by
        rw [indexErase, indexErase, List.filter_cons]
        simp [hk]
      rw [hstep, List.length_cons, List.length_cons]
      rw [if_neg hk] at hfind
      have := ih hfind hnodup.2
      omega

/-- C7: when a cached artifact's backing file has been deleted out-of-band,
a subsequent `get` with the matching `(digest, format, quality)` triple
returns absent and deletes the dangling index entry, observable as a
decrease by one of the `total_entries` count reported by `get_stats`. -/
theorem stale_entry_self_heal (cfg : CacheConfig) (now : ℚ) (content : ℕ)
    (fmt quality : Str) (st : CacheState) (e : CacheEntry)
    (hfind : indexFind (generateCacheKey (computeFileHash content) fmt quality) st.index
        = some e)
    (hgone : e.file_path ∉ st.files)
    (hnodup : (st.index.map Prod.fst).Nodup) :
    (cacheGet cfg now content fmt quality st).1 = none
      ∧ (getStats (cacheGet cfg now content fmt quality st).2).total_entries + 1
          = (getStats st).total_entries := by
  simp only [cacheGet, hfind]
  rw [if_neg hgone]
  exact ⟨rfl, by simpa [getStats, indexErase] using indexErase_length hfind hnodup⟩

/-- Witness for C7: a one-entry index whose artifact file is missing; the
entry count drops from 1 to 0. -/
theorem stale_entry_self_heal_witness :
    (cacheGet demoCacheCfg 0 3 "wav".toList "high".toList staleState).1 = none
      ∧ (getStats (cacheGet demoCacheCfg 0 3 "wav".toList "high".toList staleState).2
          ).total_entries + 1 = (getStats staleState).total_entries :=
  stale_entry_self_heal demoCacheCfg 0 3 "wav".toList "high".toList staleState staleEntry
    (by simp [staleState, staleKey, indexFind]) (by simp [staleEntry, staleState])
    (by simp [staleState])

theorem computeFileHash_no_underscore (content : ℕ) : '_' ∉ computeFileHash content := by
  intro h
  have := List.eq_of_mem_replicate h
  simp at this

theorem computeFileHash_inj {c₁ c₂ : ℕ} (h : computeFileHash c₁ = computeFileHash c₂) :
    c₁ = c₂ := by
  have := congrArg List.length h
  simpa [computeFileHash] using this

theorem append_underscore_inj :
    ∀ {a c b d : Str}, '_' ∉ a → '_' ∉ c →
      a ++ '_' :: b = c ++ '_' :: d → a = c ∧ b = d := by
  intro a
  induction a with
  | nil =>
    intro c b d _ hc h
    cases c with
    | nil => simpa using h
    | cons x c =>
      simp only [List.nil_append, List.cons_append, List.cons.injEq] at h
      obtain ⟨h1, _⟩ := h
      subst h1
      exact absurd (List.mem_cons_self _ _) hc
  | cons x a ih =>
    intro c b d ha hc h
    cases c with
    | nil =>
      simp only [List.cons_append, List.nil_append, List.cons.injEq] at h
      obtain ⟨h1, _⟩ := h
      subst h1
      exact absurd (List.mem_cons_self _ _) ha
    | cons y c =>
      simp only [List.cons_append, List.cons.injEq] at h
      obtain ⟨h1, h2⟩ := h
      subst h1
      have ha' : '_' ∉ a := fun hm => ha (List.mem_cons_of_mem _ hm)
      have hc' : '_' ∉ c := fun hm => hc (List.mem_cons_of_mem _ hm)
      obtain ⟨e1, e2⟩ := ih ha' hc' h2
      exact ⟨by rw [e1], e2⟩

theorem generateCacheKey_inj {h₁ h₂ f₁ f₂ q₁ q₂ : Str}
    (hh₁ : '_' ∉ h₁) (hh₂ : '_' ∉ h₂) (hf₁ : '_' ∉ f₁) (hf₂ : '_' ∉ f₂)
    (h : generateCacheKey h₁ f₁ q₁ = generateCacheKey h₂ f₂ q₂) :
    h₁ = h₂ ∧ f₁ = f₂ ∧ q₁ = q₂ := by
  unfold generateCacheKey md5Hex at h
  rw [List.append_assoc, List.append_assoc] at h
  simp only [List.cons_append] at h
  obtain ⟨e1, e2⟩ := append_underscore_inj hh₁ hh₂ h
  obtain ⟨e3, e4⟩ := append_underscore_inj hf₁ hf₂ e2
  exact ⟨e1, e3, e4⟩

theorem cleanupIfNeeded_index_mem {cfg : CacheConfig} {st : CacheState}
    {p : Str × CacheEntry} (hp : p ∈ (cleanupIfNeeded cfg st).index) : p ∈ st.index := by
  by_cases htrig : (cfg.max_cache_size : ℚ) < (totalSize st.index : ℚ)
  · have hres : (cleanupIfNeeded cfg st).index
        = (evictLoop cfg.max_cache_size (sortByCreated st.index)
            (totalSize st.index : ℚ) st.files).1 := by
      simp only [cleanupIfNeeded, if_pos htrig]
    rw [hres] at hp
    have htot : (totalSize (sortByCreated st.index) : ℚ) ≤ (totalSize st.index : ℚ) := by
      rw [totalSize_perm (sortByCreated_perm st.index)]
    obtain ⟨⟨pre, hpre⟩, -⟩ :=
      evictLoop_spec cfg.max_cache_size (sortByCreated st.index)
        (totalSize st.index : ℚ) st.files htot
    exact (sortByCreated_perm st.index).subset (hpre ▸ List.mem_append_right pre hp)
  · have hres : cleanupIfNeeded cfg st = st := by
      simp only [cleanupIfNeeded, if_neg htrig]
    rw [hres] at hp
    exact hp

theorem indexInsert_mem_key {k : Str} {ent e : CacheEntry}
    {idx : List (Str × CacheEntry)} (h : (k, e) ∈ indexInsert k ent idx) : e = ent := by
  unfold indexInsert at h
  split at h
  · obtain ⟨p, hp, heq⟩ := List.mem_map.1 h
    by_cases hpk : p.1 = k
    · rw [if_pos hpk] at heq
      exact (Prod.mk.injEq _ _ _ _ ▸ heq).2.symm
    · rw [if_neg hpk] at heq
      exact absurd (congrArg Prod.fst heq) hpk
  · next hmem =>
    rcases List.mem_append.1 h with h | h
    · exact absurd (List.mem_map.2 ⟨(k, e), h, rfl⟩) hmem
    · simpa using (List.mem_singleton.1 h)

/-- C3 counterexample: the cache key joins digest, format and quality with
`'_'`, so the distinct triples `(content 7, "a_b", "c")` and
`(content 7, "a", "b_c")` derive the same key.  After a `set` of the first,
a `get` with the second — whose format and quality both differ from the
stored triple — returns the stored artifact instead of the claimed
absence. -/
theorem cache_triple_miss_counterexample :
    ("a".toList, "b_c".toList) ≠ ("a_b".toList, "c".toList)
      ∧ generateCacheKey (computeFileHash 7) "a".toList "b_c".toList
          = generateCacheKey (computeFileHash 7) "a_b".toList "c".toList
      ∧ (cacheGet demoCacheCfg 0 7 "a".toList "b_c".toList collisionState).1 ≠ none := by
  refine ⟨by decide, by decide, ?_⟩
  have hstate : collisionState
      = ⟨[(generateCacheKey (computeFileHash 7) "a_b".toList "c".toList,
            ⟨generateCacheKey (computeFileHash 7) "a_b".toList "c".toList,
              computeFileHash 7, "a_b".toList, "c".toList,
              "cache".toList ++ '/' :: generateCacheKey (computeFileHash 7) "a_b".toList
                  "c".toList ++ '.' :: "a_b".toList,
              0, 100, []⟩)],
          ["cache".toList ++ '/' :: generateCacheKey (computeFileHash 7) "a_b".toList
              "c".toList ++ '.' :: "a_b".toList]⟩ := by
    rw [collisionState, cacheSet]
    norm_num [cleanupIfNeeded, totalSize, indexInsert, demoCacheCfg]
  have hkey : generateCacheKey (computeFileHash 7) "a".toList "b_c".toList
      = generateCacheKey (computeFileHash 7) "a_b".toList "c".toList := by decide
  rw [hstate, cacheGet, hkey]
  norm_num [indexFind, demoCacheCfg]
  exact Option.some_ne_none _

/-- C3 (amended): a `get` after a `set` of the same `(file bytes, format,
quality)` triple returns the cached artifact path, provided the entry
survived eviction and its backing file still exists, and its age is within
`max_age`; a `get` whose triple differs from the triple of every stored
entry returns absent, provided the format strings involved and the queried
quality derive distinct keys — guaranteed when they contain no `'_'`, since
the key joins the three components with `'_'` (and digests are
collision-free). -/
theorem cache_triple_lookup (cfg : CacheConfig) (t t' : ℚ) (content content' : ℕ)
    (fmt quality fmt' quality' outputPath : Str) (outputSize : ℕ)
    (metadata : List (Str × Str)) (st : CacheState) (e : CacheEntry)
    (hfind : indexFind (generateCacheKey (computeFileHash content) fmt quality)
        (cacheSet cfg t content outputPath outputSize fmt quality metadata st).index
        = some e)
    (hfile : e.file_path
        ∈ (cacheSet cfg t content outputPath outputSize fmt quality metadata st).files)
    (hage : t' - t ≤ cfg.max_age)
    (hwk : WellKeyed st)
    (hfmt' : '_' ∉ fmt')
    (hdiff : ∀ p ∈ st.index,
        ¬ (p.2.file_hash = computeFileHash content' ∧ p.2.output_format = fmt'
            ∧ p.2.quality = quality')) :
    (cacheGet cfg t' content fmt quality
        (cacheSet cfg t content outputPath outputSize fmt quality metadata st)).1
        = some e.file_path
      ∧ (cacheGet cfg t' content' fmt' quality' st).1 = none := by
  constructor
  · have hmem : (generateCacheKey (computeFileHash content) fmt quality, e)
        ∈ (cacheSet cfg t content outputPath outputSize fmt quality metadata st).index :=
      indexFind_mem hfind
    have hmem' : (generateCacheKey (computeFileHash content) fmt quality, e)
        ∈ indexInsert (generateCacheKey (computeFileHash content) fmt quality)
            ⟨generateCacheKey (computeFileHash content) fmt quality,
              computeFileHash content, fmt, quality,
              cfg.cache_dir ++ '/' :: generateCacheKey (computeFileHash content) fmt quality
                ++ '.' :: fmt, t, outputSize, metadata⟩ st.index :=
      cleanupIfNeeded_index_mem hmem
    have he := indexInsert_mem_key hmem'
    have hcreated : e.created_at = t := by rw [he]
    simp only [cacheGet, hfind]
    rw [if_pos hfile, if_neg (by rw [hcreated]; exact not_lt.2 hage)]
  · cases hfind' : indexFind (generateCacheKey (computeFileHash content') fmt' quality')
        st.index with
    | none => simp [cacheGet, hfind']
    | some e' =>
      exfalso
      have hmem := indexFind_mem hfind'
      obtain ⟨hkey, hh, hf⟩ := hwk _ hmem
      have hinj := generateCacheKey_inj (computeFileHash_no_underscore content') hh
        hfmt' hf hkey
      exact hdiff _ hmem ⟨hinj.1.symm, hinj.2.1.symm, hinj.2.2.symm⟩

theorem roundtripState_eq :
    roundtripState
      = ⟨[(generateCacheKey (computeFileHash 7) "wav".toList "high".toList, roundtripEntry)],
          [roundtripEntry.file_path]⟩ := by
  rw [roundtripState, cacheSet]
  norm_num [cleanupIfNeeded, totalSize, indexInsert, demoCacheCfg, roundtripEntry]

/-- Witness for C3 (amended): a round-trip hit at age 10 s, and a miss for
the never-stored `mp3`/`high` triple on the pre-set state. -/
theorem cache_triple_lookup_witness :
    (cacheGet demoCacheCfg 10 7 "wav".toList "high".toList roundtripState).1
        = some roundtripEntry.file_path
      ∧ (cacheGet demoCacheCfg 10 7 "mp3".toList "high".toList
          ⟨[], ["out.tmp".toList]⟩).1 = none := by
  have h := cache_triple_lookup demoCacheCfg 0 10 7 7 "wav".toList "high".toList
    "mp3".toList "high".toList "out.tmp".toList 100 [] ⟨[], ["out.tmp".toList]⟩
    roundtripEntry
    (by rw [show (cacheSet demoCacheCfg 0 7 "out.tmp".toList 100 "wav".toList
            "high".toList [] ⟨[], ["out.tmp".toList]⟩) = roundtripState from rfl,
          roundtripState_eq]
        simp [indexFind])
    (by rw [show (cacheSet demoCacheCfg 0 7 "out.tmp".toList 100 "wav".toList
            "high".toList [] ⟨[], ["out.tmp".toList]⟩) = roundtripState from rfl,
          roundtripState_eq]
        simp)
    (by norm_num [demoCacheCfg])
    (by intro p hp; simp at hp)
    (by decide)
    (by intro p hp; simp at hp)
  exact h

end TheConverter
